import Mathlib

/-!
Verification of the naming-convention classifier and grouping engine of
`listexamples.go`.  Strings are modelled at the level of Unicode code
points: a Go string is a `List Char`, one `Char` per rune.  All string
prefixes used by the program (`"Test"`, `"Benchmark"`, `"Example"`,
`"_test"`) are ASCII, so byte-level prefix tests in Go coincide with the
rune-level tests used here.  Fallible slice indexing (`xs[i]` in Go,
which panics when out of bounds) is modelled with `Option`: a `none`
result of `processDecl` corresponds to a run-time panic.
-/

/-- Go strings, one entry per Unicode code point (rune). -/
abbrev Str := List Char

/-- Model of Go `strings.HasPrefix`. -/
def startsWith (s pre : Str) : Bool :=
  pre.isPrefixOf s

/-- Model of Go `strings.HasSuffix`. -/
def endsWith (s suf : Str) : Bool :=
  suf.isSuffixOf s

/-- Model of Go `strings.TrimPrefix`: removes the leading `pre` when present. -/
def trimLeading (s pre : Str) : Str :=
  if startsWith s pre then s.drop pre.length else s

/-- Model of Go `strings.TrimSuffix`: removes one trailing copy of `suf` when present. -/
def trimTrailing (s suf : Str) : Str :=
  if endsWith s suf then s.take (s.length - suf.length) else s

/-- The Unicode replacement character, Go `utf8.RuneError`. -/
def runeError : Char := '\uFFFD'

/-- Model of Go `utf8.DecodeRuneInString`, restricted to the rune it returns:
the first code point of the string, or `RuneError` when the string is empty. -/
def decodeRuneInString (s : Str) : Char :=
  s.headD runeError

/-- Model of Go `unicode.IsLower` on the ASCII range exercised by this
development (the classifier applies it to whole code points; `RuneError`
and all non-letter ASCII code points are not lower-case, as in Go). -/
def unicodeIsLower (c : Char) : Bool :=
  decide (97 ≤ c.toNat ∧ c.toNat ≤ 122)

/-- Model of Go `unicode.IsUpper` on the ASCII range exercised by this
development. -/
def unicodeIsUpper (c : Char) : Bool :=
  decide (65 ≤ c.toNat ∧ c.toNat ≤ 90)

/-- The literal prefix `"Test"`. -/
def testS : Str := ("Test").data

/-- The literal prefix `"Benchmark"`. -/
def benchmarkS : Str := ("Benchmark").data

/-- The literal prefix `"Example"`. -/
def exampleS : Str := ("Example").data

/-- The literal test-variant package suffix `"_test"`. -/
def testSuffixS : Str := ("_test").data

/-- The literal `":\t"` appended to a position by `fmt.Sprintf("%s:\t", ...)`
at line 86 of listexamples.go. -/
def colonTabS : Str := (":\t").data

/-- The literal `" in "` used by `fmt.Sprintf("%s in %s", pName, pPath)`
at line 78 of listexamples.go. -/
def inSepS : Str := (" in ").data

/-- Embedding of `isTest` (listexamples.go lines 138-147): `name` looks like
a test/benchmark/example for the given prefix. -/
def isTest (name pre : Str) : Bool :=
  if !(startsWith name pre) then
    false
  else if name.length = pre.length then
    true
  else
    !(unicodeIsLower (decodeRuneInString (name.drop pre.length)))

/-- Embedding of `isExample` (listexamples.go lines 150-152). -/
def isExample (name : Str) : Bool :=
  isTest name exampleS

/-- Embedding of `isSubExample` (listexamples.go lines 155-158): the name
contains an underscore, i.e. splitting on `'_'` yields more than one part. -/
def isSubExample (name : Str) : Bool :=
  (name.splitOn '_').length > 1

/-- Embedding of `isMethodExample` (listexamples.go lines 162-165).  Go
indexes `strings.Split(name, "_")[1]`, which panics when the name has no
underscore; the panic is modelled by `none`. -/
def isMethodExample (name : Str) : Option Bool :=
  match (name.splitOn '_').get? 1 with
  | none => none
  | some seg => some (!(unicodeIsLower (decodeRuneInString seg)))

/-- One parsed declaration as handed to the core by the traversal/parse
collaborator: the raw identifier and its formatted source position. -/
structure Decl where
  name : Str
  pos : Str

/-- The `filePos` string of listexamples.go line 86:
`fmt.Sprintf("%s:\t", fset.Position(n.Pos()))`. -/
def filePosOf (d : Decl) : Str :=
  d.pos ++ colonTabS

/-- Association-list model of a Go map: lookup of a key. -/
def lookupA {α : Type} : List (Str × α) → Str → Option α
  | [], _ => none
  | (k, v) :: rest, key => if key = k then some v else lookupA rest key

/-- Association-list model of a Go map: assignment `m[key] = v`, replacing
the binding in place when the key is present and appending it otherwise. -/
def setA {α : Type} : List (Str × α) → Str → α → List (Str × α)
  | [], key, v => [(key, v)]
  | (k, w) :: rest, key, v =>
      if key = k then (k, v) :: rest else (k, w) :: setA rest key v

/-- The per-package map `funcs = map[string][]string` of listexamples.go
line 23: owner key to list of example entries. -/
abbrev FuncMap := List (Str × List Str)

/-- Go `funcList[key] = append(funcList[key], e)`: a missing key reads as
the empty slice. -/
def appendFM (m : FuncMap) (key : Str) (e : Str) : FuncMap :=
  setA m key (((lookupA m key).getD []) ++ [e])

/-- Embedding of the per-declaration body of the `ast.Inspect` callback,
listexamples.go lines 85-107.  `none` models a run-time panic from
out-of-bounds slice indexing. -/
def processDecl (fl : FuncMap) (d : Decl) : Option FuncMap :=
  if isTest d.name testS || isTest d.name benchmarkS then
    some fl
  else
    let fl1 := if !(isExample d.name) then setA fl d.name [] else fl
    if isExample d.name then
      if isSubExample d.name then
        match isMethodExample d.name with
        | none => none
        | some mex =>
          if !mex then
            match ((trimLeading d.name exampleS).splitOn '_').get? 0 with
            | none => none
            | some seg => some (appendFM fl1 seg (filePosOf d ++ d.name))
          else
            match ((trimLeading d.name exampleS).splitOn '_').get? 0,
                  (d.name.splitOn '_').get? 1 with
            | some t, some m2 =>
                some (appendFM fl1 (t ++ ('.' :: m2)) (filePosOf d ++ d.name))
            | _, _ => none
      else
        some (appendFM fl1 (trimLeading d.name exampleS) (filePosOf d ++ d.name))
    else
      some fl1

/-- Processing of a package's declarations in discovery order. -/
def processDecls (ds : List Decl) (fl : FuncMap) : Option FuncMap :=
  ds.foldlM processDecl fl

/-- The collection `pkg = map[string]funcs` of listexamples.go line 25. -/
abbrev PkgColl := List (Str × FuncMap)

/-- The trimmed package name of listexamples.go lines 73-75: one trailing
`"_test"` is removed when present. -/
def canonicalName (pName : Str) : Str :=
  if endsWith pName testSuffixS then trimTrailing pName testSuffixS else pName

/-- The package-group key of listexamples.go line 78:
`fmt.Sprintf("%s in %s", pName, pPath)` applied to the trimmed name. -/
def groupKeyOf (pName pPath : Str) : Str :=
  canonicalName pName ++ inSepS ++ pPath

/-- Union of two `FuncMap`s, listexamples.go lines 117-119: every list of
the new map is appended to the list at the same key of the base map. -/
def mergeFuncs (base fl : FuncMap) : FuncMap :=
  fl.foldl (fun acc kv => setA acc kv.1 (((lookupA acc kv.1).getD []) ++ kv.2)) base

/-- Insertion of a package's `FuncMap` into the collection, listexamples.go
lines 115-122: merge into the existing non-empty group, else assign. -/
def insertPackage (coll : PkgColl) (pName pPath : Str) (fl : FuncMap) : PkgColl :=
  let key := groupKeyOf pName pPath
  if ((lookupA coll key).getD []).length ≠ 0 then
    setA coll key (mergeFuncs (((lookupA coll key).getD [])) fl)
  else
    setA coll key fl

/-- The spec's core predicate, written from the spec's words: `name` starts
with `pre`, and either `name` equals `pre` exactly or the first code point
immediately following `pre` is not a lower-case letter. -/
def prefixedAndCapitalized (name pre : Str) : Bool :=
  startsWith name pre &&
    (decide (name = pre) ||
      (match (name.drop pre.length).head? with
       | some c => !(unicodeIsLower c)
       | none => true))

/-! ### Helper lemmas about the association-list model and `splitOn` -/

theorem lookupA_setA_self {α : Type} (m : List (Str × α)) (k : Str) (v : α) :
    lookupA (setA m k v) k = some v := by
  induction m with
  | nil => simp [setA, lookupA]
  | cons kv rest ih =>
    obtain ⟨k0, w⟩ := kv
    by_cases hk : k = k0
    · simp [setA, hk, lookupA]
    · simp [setA, hk, lookupA, ih]

theorem lookupA_setA_ne {α : Type} (m : List (Str × α)) {k k' : Str} (v : α)
    (h : k' ≠ k) : lookupA (setA m k v) k' = lookupA m k' := by
  induction m with
  | nil => simp [setA, lookupA, h]
  | cons kv rest ih =>
    obtain ⟨k0, w⟩ := kv
    by_cases hk : k = k0
    · subst hk
      simp [setA, lookupA, h]
    · by_cases hk' : k' = k0
      · simp [setA, hk, lookupA, hk']
      · simp [setA, hk, lookupA, hk', ih]

theorem splitOn_ne_nil (l : Str) (c : Char) : l.splitOn c ≠ [] :=
  List.splitOnP_ne_nil _ l

theorem splitOn_of_not_mem {c : Char} {l : Str} (h : c ∉ l) : l.splitOn c = [l] := by
  unfold List.splitOn
  apply List.splitOnP_eq_single
  intro x hx
  simp only [beq_iff_eq]
  intro hxc
  exact h (hxc ▸ hx)

theorem modifyHead_comp {α : Type} (l : List α) (f g : α → α) :
    (l.modifyHead f).modifyHead g = l.modifyHead (fun a => g (f a)) := by
  cases l <;> simp

theorem splitOn_append_of_not_mem {c : Char} {p : Str} (r : Str) (h : c ∉ p) :
    (p ++ r).splitOn c = (r.splitOn c).modifyHead (fun s => p ++ s) := by
  induction p with
  | nil =>
    cases h' : r.splitOn c with
    | nil => exact absurd h' (splitOn_ne_nil r c)
    | cons s ss => simp [h']
  | cons a p ih =>
    have hac : ¬ ((a == c) = true) := by
      simp only [beq_iff_eq]
      intro hEq
      exact h (hEq ▸ List.mem_cons_self a p)
    have hcp : c ∉ p := fun hc => h (List.mem_cons_of_mem a hc)
    have : ((a :: p) ++ r).splitOn c = (((p ++ r).splitOn c).modifyHead (fun s => a :: s)) := by
      show ((a :: (p ++ r)).splitOnP (· == c)) = _
      rw [List.splitOnP_cons]
      simp only [hac, if_false]
      rfl
    rw [this, ih hcp, modifyHead_comp]
    cases List.splitOn c r <;> simp

theorem headD_splitOn_append {c : Char} {p : Str} (r : Str) (h : c ∉ p) :
    ((p ++ r).splitOn c).headD [] = p ++ (r.splitOn c).headD [] := by
  rw [splitOn_append_of_not_mem r h]
  cases h' : r.splitOn c with
  | nil => exact absurd h' (splitOn_ne_nil r c)
  | cons s ss => simp

theorem get?_zero_splitOn (l : Str) (c : Char) :
    (l.splitOn c).get? 0 = some ((l.splitOn c).headD []) := by
  cases h : l.splitOn c with
  | nil => exact absurd h (splitOn_ne_nil l c)
  | cons s ss => simp

theorem trimLeading_append (p r : Str) : trimLeading (p ++ r) p = r := by
  unfold trimLeading startsWith
  have hp : p.isPrefixOf (p ++ r) = true :=
    List.isPrefixOf_iff_prefix.mpr ⟨r, rfl⟩
  simp [hp, List.drop_left]

/-! ### Claim theorems -/

/-- Claim C1: for every name and prefix, the program's `isTest` returns true
if and only if the name starts with the prefix and either equals it exactly
or the first code point immediately following the prefix is not a
lower-case letter — the spec's prefixed-and-capitalized predicate. -/
theorem c1_isTest_matches_prefixedAndCapitalized (name pre : Str) :
    isTest name pre = prefixedAndCapitalized name pre := by
  unfold isTest prefixedAndCapitalized
  cases h : startsWith name pre with
  | false => simp [h]
  | true =>
    have hp : pre <+: name := by
      have h' := h
      unfold startsWith at h'
      exact List.isPrefixOf_iff_prefix.mp h'
    obtain ⟨t, rfl⟩ := hp
    rcases t with _ | ⟨c, t'⟩
    · simp [h]
    · have hlen : ¬ ((pre ++ c :: t').length = pre.length) := by
        simp [List.length_append]
      have hne : ¬ (pre ++ c :: t' = pre) := by
        intro hEq
        exact hlen (congrArg List.length hEq)
      simp [h, hlen, hne, List.drop_left, decodeRuneInString]

theorem lookupA_eq_none_of_not_mem {α : Type} (m : List (Str × α)) {k : Str}
    (h : k ∉ m.map Prod.fst) : lookupA m k = none := by
  induction m with
  | nil => rfl
  | cons kv rest ih =>
    obtain ⟨k0, w⟩ := kv
    have hk : ¬ (k = k0) := by
      intro hEq
      subst hEq
      exact h (List.mem_cons_self k _)
    have hr : k ∉ rest.map Prod.fst := fun hc => h (List.mem_cons_of_mem k0 hc)
    simp [lookupA, hk, ih hr]

theorem startsWith_example_elim {name : Str} (h : isExample name = true) :
    ∃ t, name = exampleS ++ t := by
  unfold isExample isTest at h
  by_cases hs : startsWith name exampleS
  · have h' : exampleS.isPrefixOf name = true := hs
    obtain ⟨t, ht⟩ := List.isPrefixOf_iff_prefix.mp h'
    exact ⟨t, ht.symm⟩
  · simp [hs] at h

theorem test_bench_false_of_example {name : Str} (h : isExample name = true) :
    (isTest name testS || isTest name benchmarkS) = false := by
  obtain ⟨t, rfl⟩ := startsWith_example_elim h
  have hs1 : startsWith (exampleS ++ t) testS = false := rfl
  have hs2 : startsWith (exampleS ++ t) benchmarkS = false := rfl
  unfold isTest
  simp [hs1, hs2]

theorem isSubExample_of_method {name : Str} {b : Bool}
    (h : isMethodExample name = some b) : isSubExample name = true := by
  unfold isMethodExample at h
  cases hg : (name.splitOn '_').get? 1 with
  | none => rw [hg] at h; cases h
  | some seg =>
    have hlt : 1 < (name.splitOn '_').length := by
      by_contra hle
      push_neg at hle
      rw [List.get?_eq_none.mpr hle] at hg
      cases hg
    unfold isSubExample
    simpa using hlt

theorem get?_one_of_subExample {name : Str} (h : isSubExample name = true) :
    ∃ seg, (name.splitOn '_').get? 1 = some seg := by
  unfold isSubExample at h
  have hlt : 1 < (name.splitOn '_').length := by simpa using h
  cases hg : (name.splitOn '_').get? 1 with
  | none =>
    have := List.get?_eq_none.mp hg
    omega
  | some seg => exact ⟨seg, rfl⟩

theorem upper_not_lower {c : Char} (h : unicodeIsUpper c = true) :
    unicodeIsLower c = false := by
  unfold unicodeIsUpper at h
  unfold unicodeIsLower
  rw [decide_eq_true_iff] at h
  rw [decide_eq_false_iff_not]
  omega

theorem processDecl_plain (fl : FuncMap) (d : Decl)
    (h1 : (isTest d.name testS || isTest d.name benchmarkS) = false)
    (h2 : isExample d.name = false) :
    processDecl fl d = some (setA fl d.name []) := by
  unfold processDecl
  simp [h1, h2]

theorem processDecl_example_nosub (fl : FuncMap) (d : Decl)
    (hEx : isExample d.name = true) (hSub : isSubExample d.name = false) :
    processDecl fl d =
      some (appendFM fl (trimLeading d.name exampleS) (filePosOf d ++ d.name)) := by
  unfold processDecl
  simp [test_bench_false_of_example hEx, hEx, hSub]

theorem processDecl_subexample (fl : FuncMap) (d : Decl)
    (hEx : isExample d.name = true)
    (hM : isMethodExample d.name = some false) :
    processDecl fl d =
      some (appendFM fl (((trimLeading d.name exampleS).splitOn '_').headD [])
        (filePosOf d ++ d.name)) := by
  have hSub : isSubExample d.name = true := isSubExample_of_method hM
  obtain ⟨s0, ss, hs⟩ :=
    List.exists_cons_of_ne_nil (splitOn_ne_nil (trimLeading d.name exampleS) '_')
  unfold processDecl
  simp [test_bench_false_of_example hEx, hEx, hSub, hM, hs]

theorem processDecl_methodexample (fl : FuncMap) (d : Decl)
    (hEx : isExample d.name = true)
    (hM : isMethodExample d.name = some true) {seg2 : Str}
    (hSeg : (d.name.splitOn '_').get? 1 = some seg2) :
    processDecl fl d =
      some (appendFM fl ((((trimLeading d.name exampleS).splitOn '_').headD []) ++ ('.' :: seg2))
        (filePosOf d ++ d.name)) := by
  have hSub : isSubExample d.name = true := isSubExample_of_method hM
  obtain ⟨s0, ss, hs⟩ :=
    List.exists_cons_of_ne_nil (splitOn_ne_nil (trimLeading d.name exampleS) '_')
  have hSeg' : (d.name.splitOn '_')[1]? = some seg2 := by
    rw [← List.get?_eq_getElem?]
    exact hSeg
  unfold processDecl
  simp [test_bench_false_of_example hEx, hEx, hSub, hM, hs, hSeg']

theorem key_formulations_agree (rest : Str) :
    trimLeading (((exampleS ++ rest).splitOn '_').headD []) exampleS =
      ((trimLeading (exampleS ++ rest) exampleS).splitOn '_').headD [] := by
  have hnm : '_' ∉ exampleS := by decide
  rw [trimLeading_append, headD_splitOn_append rest hnm, trimLeading_append]

theorem processDecls_cons (d : Decl) (ds : List Decl) (fl : FuncMap) :
    processDecls (d :: ds) fl = (processDecl fl d).bind (fun m => processDecls ds m) := by
  cases h : processDecl fl d <;> simp [processDecls, List.foldlM_cons, h]

/-- Claim C2, counterexample: `"ExampleFoo_1"` has a second segment starting
with a digit (a non-letter), yet the program files it as a method example
under owner key `"Foo.1"` — no entry is created under key `"Foo"`. -/
theorem c2_counterexample_digit_second_segment :
    processDecl [] ⟨("ExampleFoo_1").data, ("f.go:1:1").data⟩ =
      some [((("Foo.1").data), [(("f.go:1:1:\tExampleFoo_1").data)])] ∧
    lookupA [((("Foo.1").data), [(("f.go:1:1:\tExampleFoo_1").data)])] (("Foo").data) = none := by
  exact ⟨by decide, by decide⟩

/-- Claim C2, amended: for every example name with two or more
underscore-separated segments whose second segment begins with a lower-case
letter, the classifier yields a sub-example (not a method example) and the
owner key is segment 1 with the leading "Example" stripped, discarding
everything after the first underscore.  (A second segment beginning with a
non-letter — a digit or an empty segment — is instead treated as a method
example.) -/
theorem c2_amended_lower_second_segment_subexample
    (fl : FuncMap) (rest pos : Str)
    (hEx : isExample (exampleS ++ rest) = true)
    (seg2 : Str) (hSeg : ((exampleS ++ rest).splitOn '_').get? 1 = some seg2)
    (hLow : unicodeIsLower (decodeRuneInString seg2) = true) :
    processDecl fl ⟨exampleS ++ rest, pos⟩ =
      some (appendFM fl
        (trimLeading (((exampleS ++ rest).splitOn '_').headD []) exampleS)
        ((pos ++ colonTabS) ++ (exampleS ++ rest))) := by
  have hM : isMethodExample (exampleS ++ rest) = some false := by
    unfold isMethodExample
    rw [hSeg]
    simp [hLow]
  rw [key_formulations_agree]
  exact processDecl_subexample fl ⟨exampleS ++ rest, pos⟩ hEx hM

theorem c2_witness :
    processDecl [] ⟨("ExampleFoo_bar").data, ("p").data⟩ =
      some (appendFM []
        (trimLeading (((("ExampleFoo_bar").data).splitOn '_').headD []) exampleS)
        (((("p").data) ++ colonTabS) ++ (("ExampleFoo_bar").data))) :=
  c2_amended_lower_second_segment_subexample [] (("Foo_bar").data) (("p").data)
    (by decide) (("bar").data) (by decide) (by decide)

/-- Claim C3, counterexample: processing the example `"ExampleFoo"` first and
the plain declaration `"Foo"` second leaves owner key `"Foo"` with an empty
list — the plain declaration overwrites the already collected example, so
the outcome is not order-independent. -/
theorem c3_counterexample_plain_overwrites_example :
    processDecls [⟨("ExampleFoo").data, ("a").data⟩, ⟨("Foo").data, ("b").data⟩] [] =
      some [((("Foo").data), ([] : List Str))] := by
  decide

/-- Claim C3, amended: processing a PlainDeclaration assigns a fresh empty
list to its owner key, overwriting any list already present (including one
created by an example processed earlier).  Consequently an owner key that
receives a plain declaration first and an example afterwards ends with
exactly one list containing exactly that example. -/
theorem c3_amended_plain_overwrite_round_trip :
    (∀ (fl : FuncMap) (d : Decl),
        (isTest d.name testS || isTest d.name benchmarkS) = false →
        isExample d.name = false →
        processDecl fl d = some (setA fl d.name [])) ∧
    (∀ (fl : FuncMap) (name pos1 pos2 : Str),
        (isTest name testS || isTest name benchmarkS) = false →
        isExample name = false →
        isExample (exampleS ++ name) = true →
        isSubExample (exampleS ++ name) = false →
        ∃ m, processDecls [⟨name, pos1⟩, ⟨exampleS ++ name, pos2⟩] fl = some m ∧
          lookupA m name = some [((pos2 ++ colonTabS) ++ (exampleS ++ name))]) := by
  constructor
  · exact processDecl_plain
  · intro fl name pos1 pos2 h1 h2 h3 h4
    have s1 : processDecl fl ⟨name, pos1⟩ = some (setA fl name []) :=
      processDecl_plain fl ⟨name, pos1⟩ h1 h2
    have s2 := processDecl_example_nosub (setA fl name []) ⟨exampleS ++ name, pos2⟩ h3 h4
    rw [trimLeading_append] at s2
    refine ⟨appendFM (setA fl name []) name
      ((pos2 ++ colonTabS) ++ (exampleS ++ name)), ?_, ?_⟩
    · rw [processDecls_cons, s1]
      simp only [Option.some_bind]
      rw [processDecls_cons, s2]
      simp [processDecls, filePosOf, List.append_assoc]
    · unfold appendFM
      have hin : lookupA (setA fl name []) name = some ([] : List Str) :=
        lookupA_setA_self _ _ _
      rw [hin, lookupA_setA_self]
      simp

theorem c3_witness :
    (processDecl [] ⟨("Quux").data, ("a").data⟩ = some (setA [] (("Quux").data) [])) ∧
    (∃ m, processDecls [⟨("Foo").data, ("a").data⟩,
        ⟨exampleS ++ (("Foo").data), ("b").data⟩] [] = some m ∧
      lookupA m (("Foo").data) =
        some [(((("b").data) ++ colonTabS) ++ (exampleS ++ (("Foo").data)))]) :=
  ⟨c3_amended_plain_overwrite_round_trip.1 [] ⟨("Quux").data, ("a").data⟩
      (by decide) (by decide),
   c3_amended_plain_overwrite_round_trip.2 [] (("Foo").data) (("a").data) (("b").data)
      (by decide) (by decide) (by decide) (by decide)⟩

/-- Claim C4: every declaration name accepted by `isTest` for prefix "Test"
or "Benchmark" contributes nothing to the FuncMap (the map is returned
unchanged), while `"Testify"` — whose rune after "Test" is lower-case — is
treated as a plain declaration with owner key `"Testify"`. -/
theorem c4_tests_and_benchmarks_excluded :
    (∀ (fl : FuncMap) (d : Decl),
        (isTest d.name testS || isTest d.name benchmarkS) = true →
        processDecl fl d = some fl) ∧
    (∀ (fl : FuncMap) (pos : Str),
        processDecl fl ⟨("Testify").data, pos⟩ =
          some (setA fl (("Testify").data) [])) := by
  constructor
  · intro fl d h
    unfold processDecl
    simp [h]
  · intro fl pos
    have hTB : (isTest (("Testify").data) testS || isTest (("Testify").data) benchmarkS)
        = false := by decide
    have hE : isExample (("Testify").data) = false := by decide
    exact processDecl_plain fl ⟨("Testify").data, pos⟩ hTB hE

theorem c4_witness :
    processDecl [] ⟨("TestFoo").data, ("p").data⟩ = some [] ∧
    processDecl [] ⟨("BenchmarkFoo").data, ("p").data⟩ = some [] ∧
    processDecl [] ⟨("Testify").data, ("p").data⟩ =
      some (setA [] (("Testify").data) []) :=
  ⟨c4_tests_and_benchmarks_excluded.1 [] _ (by decide),
   c4_tests_and_benchmarks_excluded.1 [] _ (by decide),
   c4_tests_and_benchmarks_excluded.2 [] (("p").data)⟩

/-- Claim C5: for every example name with two or more underscore-separated
segments whose second segment begins with an upper-case letter, the
classifier yields a method example with owner key TypePart ++ "." ++
MethodPart, where TypePart is segment 1 with the leading "Example" stripped
and MethodPart is segment 2 verbatim. -/
theorem c5_method_example_owner_key
    (fl : FuncMap) (rest pos : Str)
    (hEx : isExample (exampleS ++ rest) = true)
    (seg2 : Str) (hSeg : ((exampleS ++ rest).splitOn '_').get? 1 = some seg2)
    (hUp : unicodeIsUpper (decodeRuneInString seg2) = true) :
    processDecl fl ⟨exampleS ++ rest, pos⟩ =
      some (appendFM fl
        ((trimLeading (((exampleS ++ rest).splitOn '_').headD []) exampleS) ++ ('.' :: seg2))
        ((pos ++ colonTabS) ++ (exampleS ++ rest))) := by
  have hM : isMethodExample (exampleS ++ rest) = some true := by
    unfold isMethodExample
    rw [hSeg]
    simp [upper_not_lower hUp]
  rw [key_formulations_agree]
  exact processDecl_methodexample fl ⟨exampleS ++ rest, pos⟩ hEx hM hSeg

theorem c5_witness :
    processDecl [] ⟨("ExampleFoo_Bar").data, ("p").data⟩ =
      some (appendFM []
        ((trimLeading (((("ExampleFoo_Bar").data).splitOn '_').headD []) exampleS)
          ++ ('.' :: (("Bar").data)))
        (((("p").data) ++ colonTabS) ++ (("ExampleFoo_Bar").data))) :=
  c5_method_example_owner_key [] (("Foo_Bar").data) (("p").data)
    (by decide) (("Bar").data) (by decide) (by decide)

/-- Claim C6: for every example name without an underscore, the classifier
yields a function example whose owner key is the name with the leading
"Example" removed; in particular `"Example"` exactly yields the empty owner
key and `"ExampleFoo"` yields owner key `"Foo"`. -/
theorem c6_function_example_owner_key :
    (∀ (fl : FuncMap) (name pos : Str),
        isExample name = true →
        ¬ ('_' ∈ name) →
        processDecl fl ⟨name, pos⟩ =
          some (appendFM fl (trimLeading name exampleS) ((pos ++ colonTabS) ++ name))) ∧
    (∀ (fl : FuncMap) (pos : Str),
        processDecl fl ⟨("Example").data, pos⟩ =
          some (appendFM fl [] ((pos ++ colonTabS) ++ (("Example").data)))) ∧
    (∀ (fl : FuncMap) (pos : Str),
        processDecl fl ⟨("ExampleFoo").data, pos⟩ =
          some (appendFM fl (("Foo").data) ((pos ++ colonTabS) ++ (("ExampleFoo").data)))) := by
  have main : ∀ (fl : FuncMap) (name pos : Str), isExample name = true →
      ¬ ('_' ∈ name) →
      processDecl fl ⟨name, pos⟩ =
        some (appendFM fl (trimLeading name exampleS) ((pos ++ colonTabS) ++ name)) := by
    intro fl name pos hEx hU
    have hSub : isSubExample name = false := by
      unfold isSubExample
      rw [splitOn_of_not_mem hU]
      rfl
    exact processDecl_example_nosub fl ⟨name, pos⟩ hEx hSub
  refine ⟨main, ?_, ?_⟩
  · intro fl pos
    exact main fl (("Example").data) pos (by decide) (by decide)
  · intro fl pos
    exact main fl (("ExampleFoo").data) pos (by decide) (by decide)

theorem c6_witness :
    processDecl [] ⟨("ExampleBar").data, ("p").data⟩ =
      some (appendFM [] (trimLeading (("ExampleBar").data) exampleS)
        (((("p").data) ++ colonTabS) ++ (("ExampleBar").data))) :=
  c6_function_example_owner_key.1 [] (("ExampleBar").data) (("p").data)
    (by decide) (by decide)

theorem mergeFuncs_lookup :
    ∀ (fl base : FuncMap), (fl.map Prod.fst).Nodup →
      ∀ k, lookupA (mergeFuncs base fl) k =
        match lookupA fl k with
        | some v => some (((lookupA base k).getD []) ++ v)
        | none => lookupA base k := by
  intro fl
  induction fl with
  | nil =>
    intro base h k
    simp [mergeFuncs, lookupA]
  | cons kv rest ih =>
    intro base h k
    obtain ⟨k0, v0⟩ := kv
    have hnd : (rest.map Prod.fst).Nodup := (List.nodup_cons.mp h).2
    have hk0 : k0 ∉ rest.map Prod.fst := (List.nodup_cons.mp h).1
    have step : mergeFuncs base ((k0, v0) :: rest) =
        mergeFuncs (setA base k0 (((lookupA base k0).getD []) ++ v0)) rest := by
      simp [mergeFuncs]
    rw [step, ih _ hnd k]
    by_cases hkk : k = k0
    · rw [hkk]
      have hrest : lookupA rest k0 = none := lookupA_eq_none_of_not_mem rest hk0
      have hcons : lookupA ((k0, v0) :: rest) k0 = some v0 := by simp [lookupA]
      rw [hrest, hcons, lookupA_setA_self]
    · have h1 : lookupA (setA base k0 (((lookupA base k0).getD []) ++ v0)) k =
          lookupA base k := lookupA_setA_ne _ _ hkk
      have h2 : lookupA ((k0, v0) :: rest) k = lookupA rest k := by
        simp [lookupA, hkk]
      rw [h1, h2]

/-- Claim C7: inserting a FuncMap into a collection whose group with the
same key already holds an identical copy of it keeps exactly the same set
of owner keys and, at every key, yields the original example list appended
to itself — a list of exactly twice the original length. -/
theorem c7_self_merge_doubles_lists
    (coll : PkgColl) (pName pPath : Str) (m : FuncMap)
    (hnd : (m.map Prod.fst).Nodup)
    (hlk : lookupA coll (groupKeyOf pName pPath) = some m) :
    ∀ k, ((lookupA (insertPackage coll pName pPath m) (groupKeyOf pName pPath)).bind
        (fun m2 => lookupA m2 k)) = (lookupA m k).map (fun v => v ++ v) := by
  intro k
  simp only [insertPackage]
  rw [hlk]
  simp only [Option.getD_some]
  by_cases hm : m = []
  · subst hm
    simp [lookupA_setA_self, lookupA]
  · have hlen : m.length ≠ 0 := by
      intro hc
      exact hm (List.eq_nil_of_length_eq_zero hc)
    rw [if_pos hlen, lookupA_setA_self]
    simp only [Option.some_bind]
    rw [mergeFuncs_lookup m m hnd k]
    cases hv : lookupA m k <;> simp [hv]

theorem c7_witness :
    ((lookupA (insertPackage
        [((groupKeyOf (("demo").data) (("p").data)),
          [((("Foo").data), [(("e").data)])])]
        (("demo").data) (("p").data)
        [((("Foo").data), [(("e").data)])])
        (groupKeyOf (("demo").data) (("p").data))).bind
      (fun m2 => lookupA m2 (("Foo").data))) =
      some [(("e").data), (("e").data)] := by
  have h := c7_self_merge_doubles_lists
    [((groupKeyOf (("demo").data) (("p").data)), [((("Foo").data), [(("e").data)])])]
    (("demo").data) (("p").data)
    [((("Foo").data), [(("e").data)])]
    (by decide) (by decide) (("Foo").data)
  rw [h]
  decide

/-- Claim C8, counterexample: a raw package name ending in a doubled
test-variant suffix, `"demo_test_test"`, is trimmed only once, so the
inserted group's package name `"demo_test"` still ends in `"_test"`. -/
theorem c8_counterexample_double_test_suffix :
    canonicalName (("demo_test_test").data) = (("demo_test").data) ∧
    endsWith (canonicalName (("demo_test_test").data)) testSuffixS = true ∧
    insertPackage [] (("demo_test_test").data) (("p").data) [] =
      [((("demo_test in p").data), [])] := by
  exact ⟨by decide, by decide, by decide⟩

/-- Claim C8, amended: a raw package name ending in `"_test"` has exactly
one copy of the suffix stripped before insertion, and the insertion always
creates or updates the group under the stripped key; the resulting group
name can still end in `"_test"`, but only when the raw name ended in the
doubled suffix `"_test_test"`. -/
theorem c8_amended_single_suffix_stripped (pName : Str) :
    (endsWith pName testSuffixS = true →
      canonicalName pName = trimTrailing pName testSuffixS) ∧
    (endsWith (canonicalName pName) testSuffixS = true →
      endsWith pName (testSuffixS ++ testSuffixS) = true) ∧
    (∀ (coll : PkgColl) (pPath : Str) (fl : FuncMap),
      (lookupA (insertPackage coll pName pPath fl) (groupKeyOf pName pPath)).isSome
        = true) := by
  refine ⟨?_, ?_, ?_⟩
  · intro h
    unfold canonicalName
    rw [if_pos h]
  · intro h
    by_cases hs : endsWith pName testSuffixS = true
    · have hsuf : testSuffixS <:+ pName := List.isSuffixOf_iff_suffix.mp hs
      obtain ⟨t, ht⟩ := hsuf
      subst ht
      have hcan : canonicalName (t ++ testSuffixS) = t := by
        unfold canonicalName trimTrailing
        rw [if_pos hs, if_pos hs]
        have hl : (t ++ testSuffixS).length - testSuffixS.length = t.length := by
          rw [List.length_append]
          omega
        rw [hl, List.take_left]
      rw [hcan] at h
      obtain ⟨u, hu⟩ := List.isSuffixOf_iff_suffix.mp h
      unfold endsWith
      have : u ++ (testSuffixS ++ testSuffixS) = t ++ testSuffixS := by
        rw [← hu, List.append_assoc]
      exact List.isSuffixOf_iff_suffix.mpr ⟨u, this⟩
    · unfold canonicalName at h
      rw [if_neg hs] at h
      exact absurd h hs
  · intro coll pPath fl
    simp only [insertPackage]
    by_cases hc : ((lookupA coll (groupKeyOf pName pPath)).getD []).length ≠ 0
    · rw [if_pos hc, lookupA_setA_self]
      rfl
    · rw [if_neg hc, lookupA_setA_self]
      rfl

theorem c8_witness :
    canonicalName (("demo_test").data) = trimTrailing (("demo_test").data) testSuffixS ∧
    endsWith (("demo_test_test").data) (testSuffixS ++ testSuffixS) = true ∧
    (lookupA (insertPackage [] (("demo").data) (("p").data) [])
      (groupKeyOf (("demo").data) (("p").data))).isSome = true :=
  ⟨(c8_amended_single_suffix_stripped (("demo_test").data)).1 (by decide),
   (c8_amended_single_suffix_stripped (("demo_test_test").data)).2.1 (by decide),
   (c8_amended_single_suffix_stripped (("demo").data)).2.2 [] (("p").data) []⟩

/-- Claim C9, counterexample: the entry stored for `"ExampleFoo"` at
position `"f.go:3:1"` is `"f.go:3:1:\tExampleFoo"` — a colon stands between
the position and the tab — and this differs from position + tab + name. -/
theorem c9_counterexample_colon_before_tab :
    processDecl [] ⟨("ExampleFoo").data, ("f.go:3:1").data⟩ =
      some [((("Foo").data), [(("f.go:3:1:\tExampleFoo").data)])] ∧
    ¬ ((("f.go:3:1:\tExampleFoo").data) =
        (("f.go:3:1").data) ++ ('\t' :: (("ExampleFoo").data))) := by
  exact ⟨by decide, by decide⟩

/-- Claim C9, amended: every example entry stored in a FuncMap is the
declaration's formatted source position, followed by a colon, then a single
tab, then the original example declaration name verbatim. -/
theorem c9_amended_entry_format (fl : FuncMap) (d : Decl)
    (hEx : isExample d.name = true) :
    ∃ key, processDecl fl d =
      some (appendFM fl key (d.pos ++ (':' :: ('\t' :: d.name)))) := by
  have hE : filePosOf d ++ d.name = d.pos ++ (':' :: ('\t' :: d.name)) := by
    unfold filePosOf
    rw [List.append_assoc]
    rfl
  by_cases hSub : isSubExample d.name = true
  · obtain ⟨seg, hseg⟩ := get?_one_of_subExample hSub
    cases hb : unicodeIsLower (decodeRuneInString seg)
    · have hM : isMethodExample d.name = some true := by
        unfold isMethodExample
        rw [hseg]
        simp [hb]
      refine ⟨(((trimLeading d.name exampleS).splitOn '_').headD []) ++ ('.' :: seg), ?_⟩
      rw [processDecl_methodexample fl d hEx hM hseg, hE]
    · have hM : isMethodExample d.name = some false := by
        unfold isMethodExample
        rw [hseg]
        simp [hb]
      refine ⟨((trimLeading d.name exampleS).splitOn '_').headD [], ?_⟩
      rw [processDecl_subexample fl d hEx hM, hE]
  · have hSub' : isSubExample d.name = false := by
      revert hSub
      cases isSubExample d.name <;> simp
    refine ⟨trimLeading d.name exampleS, ?_⟩
    rw [processDecl_example_nosub fl d hEx hSub', hE]

theorem c9_witness :
    ∃ key, processDecl [] ⟨("ExampleFoo").data, ("f.go:3:1").data⟩ =
      some (appendFM [] key
        ((("f.go:3:1").data) ++ (':' :: ('\t' :: (("ExampleFoo").data))))) :=
  c9_amended_entry_format [] ⟨("ExampleFoo").data, ("f.go:3:1").data⟩ (by decide)

/-- Claim C10: the embedded classifier pipeline is total — `processDecl`
never reaches an out-of-bounds index (modelled as `none`) on any input,
because `isMethodExample` and the method-key computation are only reached
once `isSubExample` guarantees a second underscore-separated segment
exists; and decoding the first rune of an empty segment yields the
replacement rune rather than failing. -/
theorem c10_classifier_total :
    (∀ (fl : FuncMap) (d : Decl), (processDecl fl d).isSome = true) ∧
    (∀ name : Str, isSubExample name = true →
      ((name.splitOn '_').get? 1).isSome = true) ∧
    decodeRuneInString [] = runeError := by
  refine ⟨?_, ?_, rfl⟩
  · intro fl d
    by_cases h1 : (isTest d.name testS || isTest d.name benchmarkS) = true
    · unfold processDecl
      simp [h1]
    · have h1' : (isTest d.name testS || isTest d.name benchmarkS) = false := by
        revert h1
        cases isTest d.name testS || isTest d.name benchmarkS <;> simp
      by_cases hEx : isExample d.name = true
      · by_cases hSub : isSubExample d.name = true
        · obtain ⟨seg, hseg⟩ := get?_one_of_subExample hSub
          cases hb : unicodeIsLower (decodeRuneInString seg)
          · have hM : isMethodExample d.name = some true := by
              unfold isMethodExample
              rw [hseg]
              simp [hb]
            rw [processDecl_methodexample fl d hEx hM hseg]
            rfl
          · have hM : isMethodExample d.name = some false := by
              unfold isMethodExample
              rw [hseg]
              simp [hb]
            rw [processDecl_subexample fl d hEx hM]
            rfl
        · have hSub' : isSubExample d.name = false := by
            revert hSub
            cases isSubExample d.name <;> simp
          rw [processDecl_example_nosub fl d hEx hSub']
          rfl
      · have hEx' : isExample d.name = false := by
          revert hEx
          cases isExample d.name <;> simp
        rw [processDecl_plain fl d h1' hEx']
        rfl
  · intro name h
    obtain ⟨seg, hseg⟩ := get?_one_of_subExample h
    rw [hseg]
    rfl

theorem c10_witness :
    (processDecl [] ⟨("ExampleX_Y").data, ("p").data⟩).isSome = true ∧
    (((("A_b").data).splitOn '_').get? 1).isSome = true :=
  ⟨c10_classifier_total.1 [] ⟨("ExampleX_Y").data, ("p").data⟩,
   c10_classifier_total.2.1 (("A_b").data) (by decide)⟩
